import Mathlib

/-!
Verification development for the e-cue journaling tool (src/e-cue.ts).

The TypeScript source is shallowly embedded as executable Lean definitions:

* ISO-8601 UTC timestamps "YYYY-MM-DDTHH:MM:SS.sssZ" are modelled as a pair
  of the calendar date (as a day number, `Int`) and the time-of-day part
  (as a `Nat` that orders the same way as the time substring).  For such
  canonical fixed-width strings, JavaScript string comparison
  (`localeCompare`, `<`, `>`) coincides with the lexicographic order on the
  (date, time) pair, and `timestamp.split('T')[0]` is the date component.
* JavaScript `Date` day arithmetic on UTC-midnight dates is exact whole-day
  arithmetic on day numbers (the model assumes each `setDate(getDate()-1)`
  step shifts the UTC date by exactly one day, as is the case when the
  process timezone has no DST transition inside the scanned window,
  e.g. TZ=UTC).
* JavaScript floating-point arithmetic on the averages is modelled with
  exact rationals; `Math.round` on the non-negative values that occur here
  is `⌊x + 1/2⌋`.
* Fallible external calls (JSON parsing, the chat endpoint) are modelled by
  `Option`/an explicit result datatype supplied as input.
-/

namespace ECue

/-- Day number of a Gregorian calendar date (days since 1970-01-01, the
"civil from days" algorithm).  Used only to give concrete calendar dates of
the examples their actual day numbers. -/
def civilToDay (y m d : Int) : Int :=
  let y2 := if m ≤ 2 then y - 1 else y
  let era := (if 0 ≤ y2 then y2 else y2 - 399) / 400
  let yoe := y2 - era * 400
  let mp := (m + 9) % 12
  let doy := (153 * mp + 2) / 5 + d - 1
  let doe := yoe * 365 + yoe / 4 - yoe / 100 + doy
  era * 146097 + doe - 719468

/-- Model of a canonical ISO-8601 UTC timestamp string: `date` is the day
number of the `YYYY-MM-DD` prefix (the result of `split('T')[0]`), `time`
orders like the remaining `HH:MM:SS.sssZ` substring. -/
structure Timestamp where
  date : Int
  time : Nat
deriving DecidableEq

/-- String comparison of two canonical ISO timestamps
(`a.localeCompare(b) <= 0`): lexicographic on (date, time). -/
def tsLeB (a b : Timestamp) : Bool :=
  decide (a.date < b.date ∨ (a.date = b.date ∧ a.time ≤ b.time))

/-- One (user text, model reply) pair of a session
(element of `EntryFile.exchanges`, e-cue.ts:159). -/
structure Exchange where
  user : String
  assistant : String
deriving DecidableEq

/-- The `analysis` record of an entry (e-cue.ts:160-167). -/
structure Analysis where
  sentiment : String
  emotions : List String
  tone : String
  topics : List String
  summary : String
  keywords : List String
deriving DecidableEq

/-- The persisted `EntryFile` record (e-cue.ts:154-169).  `word_count` is a
`Nat`; a missing/undefined count read back from JSON is modelled as `0`,
matching the `entry.word_count || 0` normalisation at e-cue.ts:242.
Embedding components are modelled as integers (their values are never
inspected, only the length of the vector matters). -/
structure EntryFile where
  id : String
  timestamp : Timestamp
  content : String
  word_count : Nat
  exchanges : List Exchange
  analysis : Option Analysis
  embedding : Option (List Int)
deriving DecidableEq

/-- JS `\s` whitespace test; on the ASCII whitespace that occurs here it
agrees with `Char.isWhitespace`. -/
def isJsWS (c : Char) : Bool := c.isWhitespace

/-- JavaScript `String.prototype.trim()`: strip leading and trailing
whitespace. -/
def jsTrim (s : String) : String :=
  String.mk (((s.data.dropWhile isJsWS).reverse.dropWhile isJsWS).reverse)

/-- JavaScript `String.prototype.toLowerCase()` on the ASCII text compared
against the command words. -/
def jsToLower (s : String) : String := String.mk (s.data.map Char.toLower)

/-- Worker for `String.prototype.split(/\s+/)`: walks the characters; the
second argument is `some acc` while inside a (possibly empty) fragment with
reversed accumulated characters `acc`, and `none` while inside a separator
run.  Boundary separators produce empty fragments, exactly as in JS. -/
def splitGo : List Char → Option (List Char) → List String
  | [], some acc => [String.mk acc.reverse]
  | [], none => [""]
  | c :: cs, some acc =>
    if isJsWS c then String.mk acc.reverse :: splitGo cs none
    else splitGo cs (some (c :: acc))
  | c :: cs, none =>
    if isJsWS c then splitGo cs none
    else splitGo cs (some [c])

/-- JavaScript `text.split(/\s+/)`. -/
def jsSplitWS (s : String) : List String := splitGo s.data (some [])

/-- `countWords` (e-cue.ts:324-327):
`text.trim() ? text.split(/\s+/).length : 0`. -/
def countWords (text : String) : Nat :=
  if jsTrim text = "" then 0 else (jsSplitWS text).length

/-- `loadAllEntries` (e-cue.ts:100-126).  Each element of `records` is the
parse outcome of one `.json` file in the entries directory: `none` models a
record whose `JSON.parse` throws (the code logs the error and skips the
file, it never aborts the listing).  The surviving entries are sorted by
`(a, b) => b.timestamp.localeCompare(a.timestamp)`, i.e. by timestamp
descending. -/
def loadAllEntries (records : List (Option EntryFile)) : List EntryFile :=
  (records.filterMap id).mergeSort (fun a b => tsLeB b.timestamp a.timestamp)

/-- `MIN_WORDS_FOR_STREAK` (e-cue.ts:232). -/
def MIN_WORDS_FOR_STREAK : Nat := 750

/-- Date bucket of an entry: `entry.timestamp.split('T')[0]`
(e-cue.ts:246). -/
def entryDate (e : EntryFile) : Int := e.timestamp.date

/-- The `totalWordCount` accumulation of the entry scan (e-cue.ts:235,243):
`totalWordCount += entry.word_count || 0`. -/
def totalWordsOf (entries : List EntryFile) : Nat :=
  entries.foldl (fun acc e => acc + e.word_count) 0

/-- JavaScript `Set.prototype.add` on a `Set` modelled as its
insertion-ordered, duplicate-free list of elements: appends the element if
it is not yet present. -/
def jsSetAdd (s : List Int) (d : Int) : List Int :=
  if d ∈ s then s else s ++ [d]

/-- The `dates` set accumulated by the entry scan (e-cue.ts:236,247). -/
def datesOf (entries : List EntryFile) : List Int :=
  entries.foldl (fun s e => jsSetAdd s (entryDate e)) []

/-- The `qualifyingDates` set accumulated by the entry scan
(e-cue.ts:237,253-255): dates with at least one entry of
`wordCount >= MIN_WORDS_FOR_STREAK`.  (The `dateWordCounts` map built by
the same loop is never read afterwards and is not modelled.) -/
def qualifyingDatesOf (entries : List EntryFile) : List Int :=
  entries.foldl
    (fun s e => if MIN_WORDS_FOR_STREAK ≤ e.word_count then jsSetAdd s (entryDate e) else s) []

/-- One step of the `lastEntryDate` accumulation (e-cue.ts:258-260):
`if (!lastEntryDate || entry.timestamp > lastEntryDate) lastEntryDate = dateStr`.
`lastEntryDate` holds a date-only string; for a canonical timestamp `t`
and date string `d`, the string comparison `t > d` holds iff the date of
`t` is ≥ `d`. -/
def lastDateStep (acc : Option Int) (e : EntryFile) : Option Int :=
  match acc with
  | none => some (entryDate e)
  | some d => if d ≤ entryDate e then some (entryDate e) else some d

/-- The `lastEntryDate` computed by the entry scan (e-cue.ts:239,257-260). -/
def lastEntryDateOf (entries : List EntryFile) : Option Int :=
  entries.foldl lastDateStep none

/-- The `while (qualifyingDates.has(streakDate))` walk of the current-streak
computation (e-cue.ts:282-286), with explicit fuel.  The real loop visits
pairwise-distinct member dates, so it makes at most `size + 1` membership
tests; any fuel > the streak length computes the loop's result. -/
def currentStreakAux (qual : List Int) : Nat → Int → Nat
  | 0, _ => 0
  | fuel + 1, d => if d ∈ qual then currentStreakAux qual fuel (d - 1) + 1 else 0

/-- The current-streak computation (e-cue.ts:275-287): 0 unless today
qualifies, otherwise count consecutive qualifying days walking backwards
from today. -/
def currentStreakOf (qual : List Int) (today : Int) : Nat :=
  if today ∈ qual then currentStreakAux qual (qual.length + 1) today else 0

/-- The scan over consecutive pairs of sorted qualifying dates
(e-cue.ts:295-308): `cur`/`mx` are `currentConsecutive`/`maxStreak`,
`prev` the previously visited date; a gap of exactly 1 day extends the
run (and bumps the maximum), any other gap resets the run to 1. -/
def allTimeAux : Int → List Int → Nat → Nat → Nat
  | _, [], _, mx => mx
  | prev, d :: rest, cur, mx =>
    if d - prev = 1 then allTimeAux d rest (cur + 1) (max mx (cur + 1))
    else allTimeAux d rest 1 mx

/-- The all-time-streak computation (e-cue.ts:289-311): 0 when there are no
qualifying dates, otherwise the pair scan over the ascending-sorted
qualifying dates (`Array.from(qualifyingDates).sort()`, whose default
string sort on ISO dates is ascending day order) started with
`currentConsecutive = maxStreak = 1`. -/
def allTimeStreakOf (qual : List Int) : Nat :=
  match qual.insertionSort (· ≤ ·) with
  | [] => 0
  | d :: rest => allTimeAux d rest 1 1

/-- JavaScript `Math.round` on the non-negative values produced here:
`⌊x + 1/2⌋`. -/
def jsRound (q : ℚ) : Int := ⌊q + 1 / 2⌋

/-- `Math.round(x * 100) / 100` (e-cue.ts:317-318): round to 2 decimal
places. -/
def round2 (q : ℚ) : ℚ := (jsRound (q * 100) : ℚ) / 100

/-- The persisted `JournalMetadata` record (e-cue.ts:178-186).
`last_entry_date` is a date (day number) or null. -/
structure JournalMetadata where
  current_daily_streak : Nat
  all_time_daily_streak : Nat
  total_word_count : Nat
  average_word_count_per_day : ℚ
  average_word_count_per_session : ℚ
  total_entries : Nat
  last_entry_date : Option Int
deriving DecidableEq

/-- `calculateMetadata` (e-cue.ts:219-322).  `today` is the day number of
the current UTC calendar date (`new Date().toISOString().split('T')[0]`,
e-cue.ts:272-273). -/
def calculateMetadata (entries : List EntryFile) (today : Int) : JournalMetadata :=
  if entries.length = 0 then
    { current_daily_streak := 0
      all_time_daily_streak := 0
      total_word_count := 0
      average_word_count_per_day := 0
      average_word_count_per_session := 0
      total_entries := 0
      last_entry_date := none }
  else
    let totalWordCount := totalWordsOf entries
    let dates := datesOf entries
    let qual := qualifyingDatesOf entries
    let lastEntryDate := lastEntryDateOf entries
    let averageWordCountPerSession : ℚ := (totalWordCount : ℚ) / (entries.length : ℚ)
    let uniqueDaysCount := dates.length
    let averageWordCountPerDay : ℚ :=
      if 0 < uniqueDaysCount then (totalWordCount : ℚ) / (uniqueDaysCount : ℚ) else 0
    { current_daily_streak := currentStreakOf qual today
      all_time_daily_streak := allTimeStreakOf qual
      total_word_count := totalWordCount
      average_word_count_per_day := round2 averageWordCountPerDay
      average_word_count_per_session := round2 averageWordCountPerSession
      total_entries := entries.length
      last_entry_date := lastEntryDate }

/-- Result of `enrichEntry` (e-cue.ts:406-442): the entry id was unknown,
the early-exit "already has analysis and embedding" path was taken, or the
entry was updated and written back. -/
inductive EnrichOutcome where
  | notFound
  | alreadyEnriched
  | updated (entry : EntryFile)
deriving DecidableEq

/-- The `!entry.embedding || entry.embedding.length === 0` test
(e-cue.ts:430). -/
def embMissing (emb : Option (List Int)) : Bool :=
  match emb with
  | none => true
  | some v => v.isEmpty

/-- `enrichEntry` (e-cue.ts:406-442).  `analysisResult` / `embeddingResult`
are what the external `generateAnalysis` / `generateEmbedding` calls would
return (on failure those helpers themselves return a default analysis,
resp. the empty vector).  The early exit at e-cue.ts:414 is
`if (entry.analysis && entry.embedding)`: JS truthiness of the two fields,
under which an empty embedding array is truthy. -/
def enrichEntry (entry? : Option EntryFile) (analysisResult : Analysis)
    (embeddingResult : List Int) : EnrichOutcome :=
  match entry? with
  | none => EnrichOutcome.notFound
  | some entry =>
    if entry.analysis.isSome && entry.embedding.isSome then EnrichOutcome.alreadyEnriched
    else
      let e1 := match entry.analysis with
        | some _ => entry
        | none => { entry with analysis := some analysisResult }
      let e2 := if embMissing e1.embedding then { e1 with embedding := some embeddingResult }
                else e1
      EnrichOutcome.updated e2

/-- The filter of `enrichAllEntries` (e-cue.ts:446):
`!e.analysis || !e.embedding || e.embedding.length === 0`. -/
def needsEnrichment (e : EntryFile) : Bool :=
  e.analysis.isNone || e.embedding.isNone || embMissing e.embedding

/-- Entries selected by `enrichAllEntries` (e-cue.ts:444-460), each of which
is then passed to `enrichEntry` sequentially. -/
def enrichAllTargets (entries : List EntryFile) : List EntryFile :=
  entries.filter needsEnrichment

/-- Outcome of one chat call (`ollama.chat`, e-cue.ts:549-552): the reply
text, or a thrown error.  Supplied as part of the input script since the
model is an external service. -/
inductive ChatResult where
  | ok (reply : String)
  | err
deriving DecidableEq

/-- The mutable state of `journalLoop` (e-cue.ts:474-483): the `messages`
history (role/content pairs), `cumulativeWords`, and `sessionExchanges`. -/
structure SessionState where
  messages : List (String × String)
  cumulativeWords : Nat
  sessionExchanges : List Exchange
deriving DecidableEq

/-- One durable write performed by the loop: `saveEntry(entry)`
(e-cue.ts:524) or `saveMetadata(...)` (e-cue.ts:529). -/
inductive JournalWrite where
  | entry (e : EntryFile)
  | metadata
deriving DecidableEq

/-- How the loop ended: saved an entry, `save` with zero exchanges,
`exit`/`quit`, or the input script ran out with the session still open. -/
inductive LoopOutcome where
  | saved (e : EntryFile)
  | savedNothing
  | discarded
  | pending (st : SessionState)
deriving DecidableEq

/-- Final outcome of a run of the loop together with the durable writes it
performed, in order. -/
structure LoopResult where
  outcome : LoopOutcome
  writes : List JournalWrite
deriving DecidableEq

/-- The entry built by the `save` branch (e-cue.ts:507-522): user inputs
joined with single spaces as `content`, the running word count, and the
accumulated exchanges; `analysis`/`embedding` start out null. -/
def mkSavedEntry (entryId : String) (sessionStart : Timestamp)
    (st : SessionState) : EntryFile :=
  { id := entryId
    timestamp := sessionStart
    content := String.intercalate " " (st.sessionExchanges.map Exchange.user)
    word_count := st.cumulativeWords
    exchanges := st.sessionExchanges
    analysis := none
    embedding := none }

/-- The `while (true)` body of `journalLoop` (e-cue.ts:496-570), driven by a
script of (raw input line, chat outcome) events.  The chat outcome of an
event is ignored when the line is blank or a command, since those paths
never reach the chat call.  Mirrored control flow: trim the input; blank
re-prompts; `exit`/`quit` (case-insensitive) ends without saving; `save`
persists iff at least one exchange was recorded; otherwise the word count
is added to `cumulativeWords` and the user message appended to `messages`
BEFORE the chat call, and only a successful call appends the reply and the
exchange (a failed call leaves the already-counted words and the dangling
user message behind and continues). -/
def journalLoop (entryId : String) (sessionStart : Timestamp) :
    SessionState → List (String × ChatResult) → LoopResult
  | st, [] => { outcome := LoopOutcome.pending st, writes := [] }
  | st, (rawInput, res) :: script =>
    let userInput := jsTrim rawInput
    if userInput = "" then journalLoop entryId sessionStart st script
    else if jsToLower userInput = "exit" ∨ jsToLower userInput = "quit" then
      { outcome := LoopOutcome.discarded, writes := [] }
    else if jsToLower userInput = "save" then
      if 0 < st.sessionExchanges.length then
        let entry := mkSavedEntry entryId sessionStart st
        { outcome := LoopOutcome.saved entry
          writes := [JournalWrite.entry entry, JournalWrite.metadata] }
      else { outcome := LoopOutcome.savedNothing, writes := [] }
    else
      let wordCount := countWords userInput
      let st1 : SessionState :=
        { st with cumulativeWords := st.cumulativeWords + wordCount
                  messages := st.messages ++ [("user", userInput)] }
      match res with
      | ChatResult.ok reply =>
        let aiMessage := jsTrim reply
        let st2 : SessionState :=
          { st1 with messages := st1.messages ++ [("e-cue", aiMessage)]
                     sessionExchanges := st1.sessionExchanges ++ [⟨userInput, aiMessage⟩] }
        journalLoop entryId sessionStart st2 script
      | ChatResult.err => journalLoop entryId sessionStart st1 script

/-- The state at the top of `journalLoop` (e-cue.ts:474-483). -/
def initState (persona : String) : SessionState :=
  { messages := [("system", persona)], cumulativeWords := 0, sessionExchanges := [] }

/-- A full session: run the loop from the initial state.  `entryId` and
`sessionStart` stand for `randomUUID()` and `sessionStartTime`. -/
def runJournal (persona entryId : String) (sessionStart : Timestamp)
    (script : List (String × ChatResult)) : LoopResult :=
  journalLoop entryId sessionStart (initState persona) script

/-! ### Lemmas about the JS-Set accumulations of the entry scan -/

lemma mem_jsSetAdd {s : List Int} {d x : Int} : x ∈ jsSetAdd s d ↔ x ∈ s ∨ x = d := by
  by_cases h : d ∈ s <;> simp only [jsSetAdd, if_pos, if_neg, h, ite_true, ite_false,
    List.mem_append, List.mem_singleton]
  constructor
  · exact fun hx => Or.inl hx
  · rintro (hx | rfl)
    · exact hx
    · exact h

lemma nodup_jsSetAdd {s : List Int} (hs : s.Nodup) (d : Int) : (jsSetAdd s d).Nodup := by
  by_cases h : d ∈ s <;> simp only [jsSetAdd, h, ite_true, ite_false]
  · exact hs
  · simpa [List.nodup_append] using ⟨hs, h⟩

lemma mem_datesOf_fold : ∀ (l : List EntryFile) (s : List Int) (x : Int),
    x ∈ l.foldl (fun s e => jsSetAdd s (entryDate e)) s ↔
      x ∈ s ∨ ∃ e ∈ l, entryDate e = x := by
  intro l
  induction l with
  | nil => simp
  | cons e t ih =>
    intro s x
    simp only [List.foldl_cons, ih, mem_jsSetAdd, List.mem_cons]
    constructor
    · rintro ((hx | rfl) | ⟨e1, he1, hx⟩)
      · exact Or.inl hx
      · exact Or.inr ⟨e, Or.inl rfl, rfl⟩
      · exact Or.inr ⟨e1, Or.inr he1, hx⟩
    · rintro (hx | ⟨e1, (rfl | he1), hx⟩)
      · exact Or.inl (Or.inl hx)
      · exact Or.inl (Or.inr hx.symm)
      · exact Or.inr ⟨e1, he1, hx⟩

lemma mem_datesOf {l : List EntryFile} {x : Int} :
    x ∈ datesOf l ↔ ∃ e ∈ l, entryDate e = x := by
  simp [datesOf, mem_datesOf_fold]

lemma nodup_datesOf_fold : ∀ (l : List EntryFile) (s : List Int), s.Nodup →
    (l.foldl (fun s e => jsSetAdd s (entryDate e)) s).Nodup := by
  intro l
  induction l with
  | nil => exact fun s hs => hs
  | cons e t ih => exact fun s hs => ih _ (nodup_jsSetAdd hs _)

lemma nodup_datesOf (l : List EntryFile) : (datesOf l).Nodup :=
  nodup_datesOf_fold l [] List.nodup_nil

lemma mem_qualifyingDatesOf_fold : ∀ (l : List EntryFile) (s : List Int) (x : Int),
    x ∈ l.foldl
        (fun s e => if MIN_WORDS_FOR_STREAK ≤ e.word_count then jsSetAdd s (entryDate e) else s)
        s ↔
      x ∈ s ∨ ∃ e ∈ l, entryDate e = x ∧ MIN_WORDS_FOR_STREAK ≤ e.word_count := by
  intro l
  induction l with
  | nil => simp
  | cons e t ih =>
    intro s x
    by_cases h : MIN_WORDS_FOR_STREAK ≤ e.word_count
    · simp only [List.foldl_cons, if_pos h, ih, mem_jsSetAdd, List.mem_cons]
      constructor
      · rintro ((hx | rfl) | ⟨e1, he1, hx⟩)
        · exact Or.inl hx
        · exact Or.inr ⟨e, Or.inl rfl, rfl, h⟩
        · exact Or.inr ⟨e1, Or.inr he1, hx⟩
      · rintro (hx | ⟨e1, (rfl | he1), hx⟩)
        · exact Or.inl (Or.inl hx)
        · exact Or.inl (Or.inr hx.1.symm)
        · exact Or.inr ⟨e1, he1, hx⟩
    · simp only [List.foldl_cons, if_neg h, ih, List.mem_cons]
      constructor
      · rintro (hx | ⟨e1, he1, hx⟩)
        · exact Or.inl hx
        · exact Or.inr ⟨e1, Or.inr he1, hx⟩
      · rintro (hx | ⟨e1, (rfl | he1), hx⟩)
        · exact Or.inl hx
        · exact absurd hx.2 h
        · exact Or.inr ⟨e1, he1, hx⟩

lemma mem_qualifyingDatesOf {l : List EntryFile} {x : Int} :
    x ∈ qualifyingDatesOf l ↔
      ∃ e ∈ l, entryDate e = x ∧ MIN_WORDS_FOR_STREAK ≤ e.word_count := by
  simp [qualifyingDatesOf, mem_qualifyingDatesOf_fold]

lemma nodup_qualifyingDatesOf_fold : ∀ (l : List EntryFile) (s : List Int), s.Nodup →
    (l.foldl
      (fun s e => if MIN_WORDS_FOR_STREAK ≤ e.word_count then jsSetAdd s (entryDate e) else s)
      s).Nodup := by
  intro l
  induction l with
  | nil => exact fun s hs => hs
  | cons e t ih =>
    intro s hs
    by_cases h : MIN_WORDS_FOR_STREAK ≤ e.word_count
    · simpa only [List.foldl_cons, if_pos h] using ih _ (nodup_jsSetAdd hs _)
    · simpa only [List.foldl_cons, if_neg h] using ih _ hs

lemma nodup_qualifyingDatesOf (l : List EntryFile) : (qualifyingDatesOf l).Nodup :=
  nodup_qualifyingDatesOf_fold l [] List.nodup_nil

lemma totalWordsOf_fold : ∀ (l : List EntryFile) (a : Nat),
    l.foldl (fun acc e => acc + e.word_count) a = a + (l.map EntryFile.word_count).sum := by
  intro l
  induction l with
  | nil => simp
  | cons e t ih =>
    intro a
    simp only [List.foldl_cons, ih, List.map_cons, List.sum_cons]
    omega

lemma totalWordsOf_eq (l : List EntryFile) :
    totalWordsOf l = (l.map EntryFile.word_count).sum := by
  simpa [totalWordsOf] using totalWordsOf_fold l 0

/-! ### Lemmas about the `lastEntryDate` accumulation -/

lemma lastDateStep_some (d : Int) (e : EntryFile) :
    lastDateStep (some d) e = some (max d (entryDate e)) := by
  simp only [lastDateStep, max_def]
  split <;> rfl

lemma lastFold_some : ∀ (l : List EntryFile) (d : Int),
    l.foldl lastDateStep (some d) = some ((l.map entryDate).foldl max d) := by
  intro l
  induction l with
  | nil => simp
  | cons e t ih =>
    intro d
    simp only [List.foldl_cons, lastDateStep_some, ih, List.map_cons]

lemma foldl_max_bounds : ∀ (xs : List Int) (d : Int),
    d ≤ xs.foldl max d ∧ ∀ x ∈ xs, x ≤ xs.foldl max d := by
  intro xs
  induction xs with
  | nil => simp
  | cons y t ih =>
    intro d
    have h := ih (max d y)
    refine ⟨le_trans (le_max_left d y) h.1, ?_⟩
    intro x hx
    rcases List.mem_cons.mp hx with rfl | hx
    · exact le_trans (le_max_right d x) h.1
    · exact h.2 x hx

lemma foldl_max_attained : ∀ (xs : List Int) (d : Int),
    xs.foldl max d = d ∨ xs.foldl max d ∈ xs := by
  intro xs
  induction xs with
  | nil => simp
  | cons y t ih =>
    intro d
    rcases ih (max d y) with h | h
    · rcases max_cases d y with ⟨hm, _⟩ | ⟨hm, _⟩
      · rw [List.foldl_cons, h, hm]
        exact Or.inl rfl
      · rw [List.foldl_cons, h, hm]
        exact Or.inr (List.mem_cons_self y t)
    · exact Or.inr (List.mem_cons_of_mem y h)

lemma lastEntryDateOf_eq_some_iff {l : List EntryFile} {m : Int} :
    lastEntryDateOf l = some m ↔
      (∃ e ∈ l, entryDate e = m) ∧ ∀ e ∈ l, entryDate e ≤ m := by
  cases l with
  | nil => simp [lastEntryDateOf]
  | cons e t =>
    have hfold : lastEntryDateOf (e :: t) = some ((t.map entryDate).foldl max (entryDate e)) := by
      simp only [lastEntryDateOf, List.foldl_cons, lastDateStep]
      exact lastFold_some t (entryDate e)
    set M := (t.map entryDate).foldl max (entryDate e) with hM
    have hbounds := foldl_max_bounds (t.map entryDate) (entryDate e)
    have hub : ∀ x ∈ e :: t, entryDate x ≤ M := by
      intro x hx
      rcases List.mem_cons.mp hx with rfl | hx
      · exact hbounds.1
      · exact hbounds.2 _ (List.mem_map_of_mem entryDate hx)
    have hmem : ∃ x ∈ e :: t, entryDate x = M := by
      rcases foldl_max_attained (t.map entryDate) (entryDate e) with h | h
      · exact ⟨e, List.mem_cons_self e t, h.symm⟩
      · rcases List.mem_map.mp h with ⟨x, hx, hxm⟩
        exact ⟨x, List.mem_cons_of_mem e hx, hxm⟩
    rw [hfold]
    constructor
    · intro h
      have : M = m := by injection h
      subst this
      exact ⟨hmem, hub⟩
    · rintro ⟨⟨x, hx, hxm⟩, hub2⟩
      have h1 : m ≤ M := hxm ▸ hub x hx
      have h2 : M ≤ m := by
        rcases hmem with ⟨y, hy, hym⟩
        exact hym ▸ hub2 y hy
      rw [le_antisymm h2 h1]

lemma lastEntryDateOf_eq_none_iff {l : List EntryFile} :
    lastEntryDateOf l = none ↔ l = [] := by
  cases l with
  | nil => simp [lastEntryDateOf]
  | cons e t =>
    have hfold : lastEntryDateOf (e :: t) = some ((t.map entryDate).foldl max (entryDate e)) := by
      simp only [lastEntryDateOf, List.foldl_cons, lastDateStep]
      exact lastFold_some t (entryDate e)
    simp [hfold]

/-! ### Characterization of the current-streak walk -/

lemma currentStreakAux_mem : ∀ (fuel : Nat) (qual : List Int) (d : Int) (i : Nat),
    i < currentStreakAux qual fuel d → (d - (i : Int)) ∈ qual := by
  intro fuel
  induction fuel with
  | zero => intro qual d i h; simp [currentStreakAux] at h
  | succ f ih =>
    intro qual d i h
    by_cases hd : d ∈ qual
    · rw [currentStreakAux, if_pos hd] at h
      cases i with
      | zero => simpa using hd
      | succ j =>
        have hj : j < currentStreakAux qual f (d - 1) := by omega
        have := ih qual (d - 1) j hj
        have hcast : d - ((j + 1 : Nat) : Int) = d - 1 - (j : Int) := by push_cast; ring
        rwa [hcast]
    · rw [currentStreakAux, if_neg hd] at h
      omega

lemma currentStreakAux_stop : ∀ (fuel : Nat) (qual : List Int) (d : Int),
    currentStreakAux qual fuel d < fuel →
    (d - (currentStreakAux qual fuel d : Int)) ∉ qual := by
  intro fuel
  induction fuel with
  | zero => intro qual d h; omega
  | succ f ih =>
    intro qual d h
    by_cases hd : d ∈ qual
    · rw [currentStreakAux, if_pos hd] at h ⊢
      have hlt : currentStreakAux qual f (d - 1) < f := by omega
      have := ih qual (d - 1) hlt
      have hcast : d - ((currentStreakAux qual f (d - 1) + 1 : Nat) : Int) =
          d - 1 - (currentStreakAux qual f (d - 1) : Int) := by push_cast; ring
      rwa [hcast]
    · rw [currentStreakAux, if_neg hd]
      simpa using hd

lemma currentStreakAux_le_length (fuel : Nat) (qual : List Int) (d : Int)
    (hnd : qual.Nodup) : currentStreakAux qual fuel d ≤ qual.length := by
  set n := currentStreakAux qual fuel d with hn
  have hmem : ∀ i : Nat, i < n → (d - (i : Int)) ∈ qual := fun i hi =>
    currentStreakAux_mem fuel qual d i hi
  have himage : (Finset.range n).image (fun i : Nat => d - (i : Int)) ⊆ qual.toFinset := by
    intro x hx
    rcases Finset.mem_image.mp hx with ⟨i, hi, rfl⟩
    exact List.mem_toFinset.mpr (hmem i (Finset.mem_range.mp hi))
  have hinj : Function.Injective (fun i : Nat => d - (i : Int)) := by
    intro a b hab
    simp only at hab
    omega
  have hcard : ((Finset.range n).image (fun i : Nat => d - (i : Int))).card = n := by
    rw [Finset.card_image_of_injective _ hinj, Finset.card_range]
  have := Finset.card_le_card himage
  rwa [hcard, List.toFinset_card_of_nodup hnd] at this

lemma currentStreakOf_spec (qual : List Int) (today : Int) (hnd : qual.Nodup) :
    (today ∉ qual → currentStreakOf qual today = 0) ∧
    (today ∈ qual →
      0 < currentStreakOf qual today ∧
      (∀ i : Nat, i < currentStreakOf qual today → (today - (i : Int)) ∈ qual) ∧
      (today - (currentStreakOf qual today : Int)) ∉ qual) := by
  constructor
  · intro h
    rw [currentStreakOf, if_neg h]
  · intro h
    rw [currentStreakOf, if_pos h]
    refine ⟨?_, fun i hi => currentStreakAux_mem _ qual today i hi, ?_⟩
    · rw [currentStreakAux, if_pos h]
      omega
    · exact currentStreakAux_stop _ qual today
        (Nat.lt_succ_of_le (currentStreakAux_le_length _ qual today hnd))

/-! ### Characterization of the all-time-streak scan

The scan over the strictly ascending list of qualifying dates computes the
length of the longest run of consecutive dates in the set.  The invariant
carried below: `cur` is the length of the maximal run of consecutive member
dates ending at `prev`, `mx` bounds every run ending at or before `prev`
and is itself realized by some run. -/

lemma allTimeAux_spec (S : List Int) :
    ∀ (l : List Int) (prev : Int) (cur mx : Nat),
      List.Pairwise (· < ·) (prev :: l) →
      (∀ x ∈ l, x ∈ S) →
      (∀ x ∈ S, prev < x → x ∈ l) →
      prev ∈ S →
      (∀ i : Nat, i < cur → (prev - (i : Int)) ∈ S) →
      (prev - (cur : Int)) ∉ S →
      1 ≤ cur → cur ≤ mx →
      (∃ e : Int, ∀ i : Nat, i < mx → (e + (i : Int)) ∈ S) →
      (∀ (e : Int) (k : Nat), e ∈ S → e ≤ prev →
        (∀ i : Nat, i < k → (e - (i : Int)) ∈ S) → k ≤ mx) →
      (∃ e : Int, ∀ i : Nat, i < allTimeAux prev l cur mx → (e + (i : Int)) ∈ S) ∧
      (∀ (e : Int) (k : Nat), (∀ i : Nat, i < k → (e + (i : Int)) ∈ S) →
        k ≤ allTimeAux prev l cur mx) ∧
      mx ≤ allTimeAux prev l cur mx := by
  intro l
  induction l with
  | nil =>
    intro prev cur mx hpw hsub hclo hprevS hrun hstop hcur1 hcurmx hex hbound
    refine ⟨hex, ?_, le_refl mx⟩
    intro e k hk
    cases k with
    | zero => exact Nat.zero_le mx
    | succ k0 =>
      have hpS : (e + (k0 : Int)) ∈ S := hk k0 (Nat.lt_succ_self k0)
      have hple : e + (k0 : Int) ≤ prev := by
        by_contra hgt
        exact absurd (hclo _ hpS (by omega)) (List.not_mem_nil _)
      refine hbound (e + (k0 : Int)) (k0 + 1) hpS hple ?_
      intro i hi
      have hcast : e + (k0 : Int) - (i : Int) = e + ((k0 - i : Nat) : Int) := by
        have : i ≤ k0 := by omega
        push_cast [this]
        ring
      rw [hcast]
      exact hk (k0 - i) (by omega)
  | cons d rest ih =>
    intro prev cur mx hpw hsub hclo hprevS hrun hstop hcur1 hcurmx hex hbound
    have hpd : prev < d := (List.pairwise_cons.mp hpw).1 d (List.mem_cons_self d rest)
    have hpw2 : List.Pairwise (· < ·) (d :: rest) := (List.pairwise_cons.mp hpw).2
    have hdrest : ∀ x ∈ rest, d < x := fun x hx => (List.pairwise_cons.mp hpw2).1 x hx
    have hdS : d ∈ S := hsub d (List.mem_cons_self d rest)
    have hsub2 : ∀ x ∈ rest, x ∈ S := fun x hx => hsub x (List.mem_cons_of_mem d hx)
    have hclo2 : ∀ x ∈ S, d < x → x ∈ rest := by
      intro x hxS hdx
      rcases List.mem_cons.mp (hclo x hxS (lt_trans hpd hdx)) with rfl | hx
      · omega
      · exact hx
    by_cases hgap : d - prev = 1
    · -- consecutive day: extend the current run
      have heq : allTimeAux prev (d :: rest) cur mx
          = allTimeAux d rest (cur + 1) (max mx (cur + 1)) := by
        rw [allTimeAux, if_pos hgap]
      have hrun2 : ∀ i : Nat, i < cur + 1 → (d - (i : Int)) ∈ S := by
        intro i hi
        cases i with
        | zero => simpa using hdS
        | succ j =>
          have hcast : d - ((j + 1 : Nat) : Int) = prev - (j : Int) := by push_cast; omega
          rw [hcast]
          exact hrun j (by omega)
      have hstop2 : (d - ((cur + 1 : Nat) : Int)) ∉ S := by
        have hcast : d - ((cur + 1 : Nat) : Int) = prev - (cur : Int) := by push_cast; omega
        rw [hcast]
        exact hstop
      have hex2 : ∃ e : Int, ∀ i : Nat, i < max mx (cur + 1) → (e + (i : Int)) ∈ S := by
        rcases Nat.le_total mx (cur + 1) with hle | hle
        · rw [max_eq_right hle]
          refine ⟨d - (cur : Int), ?_⟩
          intro i hi
          by_cases hic : i = cur
          · have hc : d - (cur : Int) + (i : Int) = d := by omega
            rw [hc]
            exact hdS
          · have hile : i ≤ cur := by omega
            have hc : d - (cur : Int) + (i : Int) = d - ((cur - i : Nat) : Int) := by
              push_cast [hile]
              ring
            rw [hc]
            exact hrun2 (cur - i) (by omega)
        · rw [max_eq_left hle]
          exact hex
      have hbound2 : ∀ (e : Int) (k : Nat), e ∈ S → e ≤ d →
          (∀ i : Nat, i < k → (e - (i : Int)) ∈ S) → k ≤ max mx (cur + 1) := by
        intro e k heS hle hkrun
        by_cases he : e = d
        · subst he
          have hk1 : k ≤ cur + 1 := by
            by_contra hk2
            exact hstop2 (hkrun (cur + 1) (by omega))
          exact le_trans hk1 (le_max_right mx (cur + 1))
        · have hlep : e ≤ prev := by
            by_contra hgt
            rcases List.mem_cons.mp (hclo e heS (by omega)) with rfl | hx
            · exact he rfl
            · have := hdrest e hx
              omega
          exact le_trans (hbound e k heS hlep hkrun) (le_max_left mx (cur + 1))
      have hres := ih d (cur + 1) (max mx (cur + 1)) hpw2 hsub2 hclo2 hdS hrun2 hstop2
        (by omega) (le_max_right mx (cur + 1)) hex2 hbound2
      rw [heq]
      exact ⟨hres.1, hres.2.1, le_trans (le_max_left mx (cur + 1)) hres.2.2⟩
    · -- gap: reset the run to length 1
      have hd1 : (d - 1) ∉ S := by
        intro hin
        rcases List.mem_cons.mp (hclo (d - 1) hin (by omega)) with heq1 | hx
        · omega
        · have := hdrest _ hx
          omega
      have heq : allTimeAux prev (d :: rest) cur mx = allTimeAux d rest 1 mx := by
        rw [allTimeAux, if_neg hgap]
      have hrun2 : ∀ i : Nat, i < 1 → (d - (i : Int)) ∈ S := by
        intro i hi
        have : i = 0 := by omega
        subst this
        simpa using hdS
      have hstop2 : (d - ((1 : Nat) : Int)) ∉ S := by simpa using hd1
      have hbound2 : ∀ (e : Int) (k : Nat), e ∈ S → e ≤ d →
          (∀ i : Nat, i < k → (e - (i : Int)) ∈ S) → k ≤ mx := by
        intro e k heS hle hkrun
        by_cases he : e = d
        · subst he
          have hk1 : k ≤ 1 := by
            by_contra hk2
            have := hkrun 1 (by omega)
            simp only [Nat.cast_one] at this
            exact hd1 this
          omega
        · have hlep : e ≤ prev := by
            by_contra hgt
            rcases List.mem_cons.mp (hclo e heS (by omega)) with rfl | hx
            · exact he rfl
            · have := hdrest e hx
              omega
          exact hbound e k heS hlep hkrun
      have hres := ih d 1 mx hpw2 hsub2 hclo2 hdS hrun2 hstop2 (le_refl 1)
        (by omega) hex hbound2
      rw [heq]
      exact hres

lemma allTimeStreakOf_spec (qual : List Int) (hnd : qual.Nodup) :
    ((∃ x, x ∈ qual) → 1 ≤ allTimeStreakOf qual ∧
      ∃ e : Int, ∀ i : Nat, i < allTimeStreakOf qual → (e + (i : Int)) ∈ qual) ∧
    (∀ (e : Int) (k : Nat), (∀ i : Nat, i < k → (e + (i : Int)) ∈ qual) →
      k ≤ allTimeStreakOf qual) := by
  have hperm : List.Perm (qual.insertionSort (· ≤ ·)) qual := List.perm_insertionSort (· ≤ ·) qual
  have hsorted : List.Sorted (· ≤ ·) (qual.insertionSort (· ≤ ·)) :=
    List.sorted_insertionSort (· ≤ ·) qual
  have hndsl : (qual.insertionSort (· ≤ ·)).Nodup := hperm.nodup_iff.mpr hnd
  have hlt : List.Sorted (· < ·) (qual.insertionSort (· ≤ ·)) := hsorted.lt_of_le hndsl
  have hmem : ∀ x, x ∈ qual.insertionSort (· ≤ ·) ↔ x ∈ qual := fun x => hperm.mem_iff
  rcases hsl : qual.insertionSort (· ≤ ·) with _ | ⟨d, rest⟩
  · have hempty : qual = [] := by
      have := hperm
      rw [hsl] at this
      exact (List.Perm.nil_eq this).symm
    subst hempty
    have hres : allTimeStreakOf [] = 0 := by
      simp [allTimeStreakOf, List.insertionSort]
    constructor
    · rintro ⟨x, hx⟩
      exact absurd hx (List.not_mem_nil x)
    · intro e k hk
      cases k with
      | zero => simp [hres]
      | succ k0 =>
        have := hk 0 (Nat.succ_pos k0)
        exact absurd this (List.not_mem_nil _)
  · rw [hsl] at hlt hmem
    have hres : allTimeStreakOf qual = allTimeAux d rest 1 1 := by
      rw [allTimeStreakOf, hsl]
    have hdq : d ∈ qual := (hmem d).mp (List.mem_cons_self d rest)
    have hdrest : ∀ x ∈ rest, d < x := fun x hx =>
      (List.pairwise_cons.mp hlt).1 x hx
    have hd1 : (d - 1) ∉ qual := by
      intro hin
      rcases List.mem_cons.mp ((hmem (d - 1)).mpr hin) with heq1 | hx
      · omega
      · have := hdrest _ hx
        omega
    have hspec := allTimeAux_spec qual rest d 1 1 hlt
      (fun x hx => (hmem x).mp (List.mem_cons_of_mem d hx))
      (by
        intro x hxq hdx
        rcases List.mem_cons.mp ((hmem x).mpr hxq) with rfl | hx
        · omega
        · exact hx)
      hdq
      (by
        intro i hi
        have : i = 0 := by omega
        subst this
        simpa using hdq)
      (by simpa using hd1)
      (le_refl 1) (le_refl 1)
      ⟨d, by
        intro i hi
        have : i = 0 := by omega
        subst this
        simpa using hdq⟩
      (by
        intro e k heq hle hkrun
        have he : e = d := by
          rcases List.mem_cons.mp ((hmem e).mpr heq) with rfl | hx
          · rfl
          · have := hdrest e hx
            omega
        subst he
        by_contra hk2
        have := hkrun 1 (by omega)
        simp only [Nat.cast_one] at this
        exact hd1 this)
    rw [hres]
    exact ⟨fun _ => ⟨hspec.2.2, hspec.1⟩, hspec.2.1⟩

/-! ### Projections of `calculateMetadata` -/

lemma calculateMetadata_ne_nil (entries : List EntryFile) (today : Int) (h : entries ≠ []) :
    calculateMetadata entries today =
      { current_daily_streak := currentStreakOf (qualifyingDatesOf entries) today
        all_time_daily_streak := allTimeStreakOf (qualifyingDatesOf entries)
        total_word_count := totalWordsOf entries
        average_word_count_per_day := round2 (if 0 < (datesOf entries).length then
          (totalWordsOf entries : ℚ) / ((datesOf entries).length : ℚ) else 0)
        average_word_count_per_session :=
          round2 ((totalWordsOf entries : ℚ) / (entries.length : ℚ))
        total_entries := entries.length
        last_entry_date := lastEntryDateOf entries } := by
  rw [calculateMetadata, if_neg]
  simpa using h

lemma qualifyingDatesOf_nil : qualifyingDatesOf [] = [] := rfl

lemma currentStreakOf_nil (today : Int) : currentStreakOf [] today = 0 := by
  simp [currentStreakOf]

lemma allTimeStreakOf_nil : allTimeStreakOf [] = 0 := rfl

lemma calc_current_eq (entries : List EntryFile) (today : Int) :
    (calculateMetadata entries today).current_daily_streak
      = currentStreakOf (qualifyingDatesOf entries) today := by
  by_cases h : entries = []
  · subst h
    rw [qualifyingDatesOf_nil, currentStreakOf_nil]
    rfl
  · rw [calculateMetadata_ne_nil entries today h]

lemma calc_allTime_eq (entries : List EntryFile) (today : Int) :
    (calculateMetadata entries today).all_time_daily_streak
      = allTimeStreakOf (qualifyingDatesOf entries) := by
  by_cases h : entries = []
  · subst h
    rw [qualifyingDatesOf_nil, allTimeStreakOf_nil]
    rfl
  · rw [calculateMetadata_ne_nil entries today h]

lemma calc_total_entries (entries : List EntryFile) (today : Int) :
    (calculateMetadata entries today).total_entries = entries.length := by
  by_cases h : entries = []
  · subst h
    rfl
  · rw [calculateMetadata_ne_nil entries today h]

lemma calc_total_words (entries : List EntryFile) (today : Int) :
    (calculateMetadata entries today).total_word_count = totalWordsOf entries := by
  by_cases h : entries = []
  · subst h
    rfl
  · rw [calculateMetadata_ne_nil entries today h]

lemma calc_last_entry (entries : List EntryFile) (today : Int) :
    (calculateMetadata entries today).last_entry_date = lastEntryDateOf entries := by
  by_cases h : entries = []
  · subst h
    rfl
  · rw [calculateMetadata_ne_nil entries today h]

/-! ### Claim theorems about the metadata aggregator -/

/-- C2: for every entry set and fixed current UTC date, if the current date
is not a qualifying date the computed `current_daily_streak` is 0;
otherwise it is positive, every one of the `current_daily_streak`
consecutive days ending at the current date is qualifying, and the day
immediately before that window is not qualifying — i.e. the streak is
exactly the number of consecutive qualifying calendar days ending at the
current date. -/
theorem current_streak_spec (entries : List EntryFile) (today : Int) :
    ((calculateMetadata entries today).current_daily_streak
        = currentStreakOf (qualifyingDatesOf entries) today) ∧
    (today ∉ qualifyingDatesOf entries →
      (calculateMetadata entries today).current_daily_streak = 0) ∧
    (today ∈ qualifyingDatesOf entries →
      0 < (calculateMetadata entries today).current_daily_streak ∧
      (∀ i : Nat, i < (calculateMetadata entries today).current_daily_streak →
        (today - (i : Int)) ∈ qualifyingDatesOf entries) ∧
      (today - ((calculateMetadata entries today).current_daily_streak : Int))
        ∉ qualifyingDatesOf entries) := by
  have hproj := calc_current_eq entries today
  have hspec := currentStreakOf_spec (qualifyingDatesOf entries) today
    (nodup_qualifyingDatesOf entries)
  refine ⟨hproj, ?_, ?_⟩
  · intro h
    rw [hproj]
    exact hspec.1 h
  · intro h
    rw [hproj]
    exact hspec.2 h

/-- C3: the computed `all_time_daily_streak` is the length of the longest
run of consecutive calendar days inside the deduplicated qualifying-date
set: some run of that length exists whenever a qualifying date exists (and
the streak is then at least 1), and no run of consecutive qualifying days
is longer. -/
theorem all_time_streak_spec (entries : List EntryFile) (today : Int) :
    ((calculateMetadata entries today).all_time_daily_streak
        = allTimeStreakOf (qualifyingDatesOf entries)) ∧
    (qualifyingDatesOf entries ≠ [] →
      1 ≤ (calculateMetadata entries today).all_time_daily_streak ∧
      ∃ e : Int, ∀ i : Nat, i < (calculateMetadata entries today).all_time_daily_streak →
        (e + (i : Int)) ∈ qualifyingDatesOf entries) ∧
    (∀ (e : Int) (k : Nat),
      (∀ i : Nat, i < k → (e + (i : Int)) ∈ qualifyingDatesOf entries) →
      k ≤ (calculateMetadata entries today).all_time_daily_streak) := by
  have hproj := calc_allTime_eq entries today
  have hspec := allTimeStreakOf_spec (qualifyingDatesOf entries)
    (nodup_qualifyingDatesOf entries)
  refine ⟨hproj, ?_, ?_⟩
  · intro h
    rw [hproj]
    exact hspec.1 (List.exists_mem_of_ne_nil _ h)
  · intro e k hk
    rw [hproj]
    exact hspec.2 e k hk

/-- C10: the current daily streak never exceeds the all-time daily streak:
the consecutive qualifying days ending today, when the current streak is
nonzero, form one of the runs the all-time computation maximizes over. -/
theorem current_streak_le_all_time (entries : List EntryFile) (today : Int) :
    (calculateMetadata entries today).current_daily_streak
      ≤ (calculateMetadata entries today).all_time_daily_streak := by
  rw [calc_current_eq entries today, calc_allTime_eq entries today]
  set q := qualifyingDatesOf entries with hq
  have hnd : q.Nodup := nodup_qualifyingDatesOf entries
  by_cases hmem : today ∈ q
  · have hspec := (currentStreakOf_spec q today hnd).2 hmem
    set n := currentStreakOf q today with hn
    have hrun : ∀ i : Nat, i < n → (today - (n : Int) + 1 + (i : Int)) ∈ q := by
      intro i hi
      have hc : today - (n : Int) + 1 + (i : Int) = today - ((n - 1 - i : Nat) : Int) := by
        omega
      rw [hc]
      exact hspec.2.1 (n - 1 - i) (by omega)
    exact (allTimeStreakOf_spec q hnd).2 (today - (n : Int) + 1) n hrun
  · rw [(currentStreakOf_spec q today hnd).1 hmem]
    exact Nat.zero_le _

/-- C5: a calendar date is qualifying iff some entry on that UTC date has
word count at least 750 (`MIN_WORDS_FOR_STREAK`); every entry, regardless
of word count, contributes its date to the distinct-date set and itself to
`total_entries`. -/
theorem qualifying_dates_spec (entries : List EntryFile) (today : Int) (d : Int) :
    (d ∈ qualifyingDatesOf entries ↔
      ∃ e ∈ entries, entryDate e = d ∧ MIN_WORDS_FOR_STREAK ≤ e.word_count) ∧
    (d ∈ datesOf entries ↔ ∃ e ∈ entries, entryDate e = d) ∧
    (calculateMetadata entries today).total_entries = entries.length :=
  ⟨mem_qualifyingDatesOf, mem_datesOf, calc_total_entries entries today⟩

/-- C6: for a non-empty entry set the stored averages are the total word
count divided by the number of sessions, resp. by the number of distinct
calendar dates with at least one entry, rounded to 2 decimal places, and
the total word count is the sum of the entries' word counts. -/
theorem averages_spec (entries : List EntryFile) (today : Int) (h : entries ≠ []) :
    (calculateMetadata entries today).average_word_count_per_session
      = round2 (((calculateMetadata entries today).total_word_count : ℚ)
          / (((calculateMetadata entries today).total_entries : Nat) : ℚ)) ∧
    (calculateMetadata entries today).average_word_count_per_day
      = round2 (((calculateMetadata entries today).total_word_count : ℚ)
          / (((datesOf entries).length : Nat) : ℚ)) ∧
    (calculateMetadata entries today).total_word_count
      = (entries.map EntryFile.word_count).sum := by
  rw [calculateMetadata_ne_nil entries today h]
  refine ⟨rfl, ?_, totalWordsOf_eq entries⟩
  rcases Nat.eq_zero_or_pos (datesOf entries).length with hl | hl
  · rw [if_neg (by omega), hl]
    norm_num
  · rw [if_pos hl]

/-! ### Order-independence of the metadata aggregation (C4) -/

lemma perm_of_nodup_mem_iff {l1 l2 : List Int} (h1 : l1.Nodup) (h2 : l2.Nodup)
    (hm : ∀ x : Int, x ∈ l1 ↔ x ∈ l2) : List.Perm l1 l2 := by
  rw [List.perm_iff_count]
  intro a
  by_cases ha : a ∈ l1
  · rw [List.count_eq_one_of_mem h1 ha, List.count_eq_one_of_mem h2 ((hm a).mp ha)]
  · rw [List.count_eq_zero_of_not_mem ha,
      List.count_eq_zero_of_not_mem (fun h => ha ((hm a).mpr h))]

lemma datesOf_perm {l1 l2 : List EntryFile} (h : List.Perm l1 l2) :
    List.Perm (datesOf l1) (datesOf l2) :=
  perm_of_nodup_mem_iff (nodup_datesOf l1) (nodup_datesOf l2) (fun x => by
    rw [mem_datesOf, mem_datesOf]
    exact ⟨fun ⟨e, he, hx⟩ => ⟨e, h.mem_iff.mp he, hx⟩,
      fun ⟨e, he, hx⟩ => ⟨e, h.mem_iff.mpr he, hx⟩⟩)

lemma qualifyingDatesOf_perm {l1 l2 : List EntryFile} (h : List.Perm l1 l2) :
    List.Perm (qualifyingDatesOf l1) (qualifyingDatesOf l2) :=
  perm_of_nodup_mem_iff (nodup_qualifyingDatesOf l1) (nodup_qualifyingDatesOf l2) (fun x => by
    rw [mem_qualifyingDatesOf, mem_qualifyingDatesOf]
    exact ⟨fun ⟨e, he, hx⟩ => ⟨e, h.mem_iff.mp he, hx⟩,
      fun ⟨e, he, hx⟩ => ⟨e, h.mem_iff.mpr he, hx⟩⟩)

lemma totalWordsOf_perm {l1 l2 : List EntryFile} (h : List.Perm l1 l2) :
    totalWordsOf l1 = totalWordsOf l2 := by
  rw [totalWordsOf_eq, totalWordsOf_eq]
  exact (h.map EntryFile.word_count).sum_eq

lemma lastEntryDateOf_perm {l1 l2 : List EntryFile} (h : List.Perm l1 l2) :
    lastEntryDateOf l1 = lastEntryDateOf l2 := by
  cases h1 : lastEntryDateOf l1 with
  | none =>
    have := lastEntryDateOf_eq_none_iff.mp h1
    subst this
    have h2 : l2 = [] := (List.Perm.nil_eq h).symm
    subst h2
    rfl
  | some m =>
    rcases lastEntryDateOf_eq_some_iff.mp h1 with ⟨⟨e, he, hem⟩, hub⟩
    exact (lastEntryDateOf_eq_some_iff.mpr
      ⟨⟨e, h.mem_iff.mp he, hem⟩, fun x hx => hub x (h.mem_iff.mpr hx)⟩).symm

lemma currentStreakAux_congr (q1 q2 : List Int) (hm : ∀ x : Int, x ∈ q1 ↔ x ∈ q2) :
    ∀ (fuel : Nat) (d : Int), currentStreakAux q1 fuel d = currentStreakAux q2 fuel d := by
  intro fuel
  induction fuel with
  | zero => intro d; rfl
  | succ f ih =>
    intro d
    by_cases hd : d ∈ q1
    · rw [currentStreakAux, currentStreakAux, if_pos hd, if_pos ((hm d).mp hd), ih]
    · rw [currentStreakAux, currentStreakAux, if_neg hd,
        if_neg (fun hc => hd ((hm d).mpr hc))]

lemma currentStreakOf_congr {q1 q2 : List Int} (hp : List.Perm q1 q2) (today : Int) :
    currentStreakOf q1 today = currentStreakOf q2 today := by
  unfold currentStreakOf
  by_cases hd : today ∈ q1
  · rw [if_pos hd, if_pos (hp.mem_iff.mp hd), hp.length_eq,
      currentStreakAux_congr q1 q2 (fun x => hp.mem_iff)]
  · rw [if_neg hd, if_neg (fun hc => hd (hp.mem_iff.mpr hc))]

lemma allTimeStreakOf_congr {q1 q2 : List Int} (hp : List.Perm q1 q2) :
    allTimeStreakOf q1 = allTimeStreakOf q2 := by
  have hs : q1.insertionSort (· ≤ ·) = q2.insertionSort (· ≤ ·) :=
    List.eq_of_perm_of_sorted
      ((List.perm_insertionSort _ q1).trans (hp.trans (List.perm_insertionSort _ q2).symm))
      (List.sorted_insertionSort _ q1) (List.sorted_insertionSort _ q2)
  rw [allTimeStreakOf, allTimeStreakOf, hs]

/-- C4: `calculateMetadata` is order-independent: permuting the entry list
changes no field of the result (with the current date held fixed). -/
theorem calculateMetadata_perm (l1 l2 : List EntryFile) (today : Int)
    (h : List.Perm l1 l2) :
    calculateMetadata l1 today = calculateMetadata l2 today := by
  by_cases hnil : l1 = []
  · subst hnil
    have h2 : l2 = [] := (List.Perm.nil_eq h).symm
    subst h2
    rfl
  · have hnil2 : l2 ≠ [] := by
      intro hc
      subst hc
      exact hnil (List.Perm.nil_eq h.symm).symm
    have hq := qualifyingDatesOf_perm h
    rw [calculateMetadata_ne_nil l1 today hnil, calculateMetadata_ne_nil l2 today hnil2,
      totalWordsOf_perm h, lastEntryDateOf_perm h, h.length_eq,
      (datesOf_perm h).length_eq, currentStreakOf_congr hq today, allTimeStreakOf_congr hq]

/-! ### The entry store listing (C8) -/

lemma tsLeB_trans (a b c : Timestamp) (hab : tsLeB a b = true) (hbc : tsLeB b c = true) :
    tsLeB a c = true := by
  simp only [tsLeB, decide_eq_true_eq] at hab hbc ⊢
  omega

lemma tsLeB_total (a b : Timestamp) : (tsLeB a b || tsLeB b a) = true := by
  simp only [tsLeB, Bool.or_eq_true, decide_eq_true_eq]
  omega

/-- C8: listing the store never drops a parseable record and never keeps a
corrupted one: the result is a permutation of exactly the successfully
parsed records (in particular it has exactly that many elements), sorted by
timestamp descending. -/
theorem loadAllEntries_spec (records : List (Option EntryFile)) :
    List.Perm (loadAllEntries records) (records.filterMap id) ∧
    List.Pairwise (fun a b : EntryFile => tsLeB b.timestamp a.timestamp = true)
      (loadAllEntries records) ∧
    (loadAllEntries records).length = (records.filterMap id).length := by
  have hperm : List.Perm (loadAllEntries records) (records.filterMap id) :=
    List.mergeSort_perm (records.filterMap id) _
  refine ⟨hperm, ?_, hperm.length_eq⟩
  have hsorted := List.sorted_mergeSort
    (fun a b c hab hbc => tsLeB_trans c.timestamp b.timestamp a.timestamp hbc hab)
    (fun a b : EntryFile => tsLeB_total b.timestamp a.timestamp)
    (records.filterMap id)
  exact hsorted

/-! ### The session loop: persistence discipline (C9) and word count (C1) -/

lemma journalLoop_writes_spec (entryId : String) (ts : Timestamp) :
    ∀ (script : List (String × ChatResult)) (st : SessionState),
      ((journalLoop entryId ts st script).writes ≠ [] ↔
        ∃ e, (journalLoop entryId ts st script).outcome = LoopOutcome.saved e) ∧
      (∀ e, (journalLoop entryId ts st script).outcome = LoopOutcome.saved e →
        (journalLoop entryId ts st script).writes
            = [JournalWrite.entry e, JournalWrite.metadata] ∧
        e.exchanges ≠ []) := by
  intro script
  induction script with
  | nil =>
    intro st
    constructor
    · simp [journalLoop]
    · intro e he
      simp [journalLoop] at he
  | cons ev rest ih =>
    intro st
    obtain ⟨raw, res⟩ := ev
    by_cases h1 : jsTrim raw = ""
    · simpa only [journalLoop, h1, if_pos, if_true] using ih st
    · by_cases h2 : jsToLower (jsTrim raw) = "exit" ∨ jsToLower (jsTrim raw) = "quit"
      · simp only [journalLoop, if_neg h1, if_pos h2]
        constructor
        · simp
        · intro e he
          simp at he
      · by_cases h3 : jsToLower (jsTrim raw) = "save"
        · by_cases h4 : 0 < st.sessionExchanges.length
          · simp only [journalLoop, if_neg h1, if_neg h2, if_pos h3, if_pos h4]
            constructor
            · simp
            · intro e he
              simp only [LoopOutcome.saved.injEq] at he
              subst he
              refine ⟨rfl, ?_⟩
              simpa [mkSavedEntry] using List.length_pos.mp h4
          · simp only [journalLoop, if_neg h1, if_neg h2, if_pos h3, if_neg h4]
            constructor
            · simp
            · intro e he
              simp at he
        · cases res with
          | ok reply =>
            simpa only [journalLoop, if_neg h1, if_neg h2, if_neg h3] using ih _
          | err =>
            simpa only [journalLoop, if_neg h1, if_neg h2, if_neg h3] using ih _

/-- C9: the session loop performs durable writes (the entry file followed by
the metadata file) exactly when it ends in the save-with-content state:
`exit`/`quit` and `save` with zero exchanges write nothing, and a saved
entry always carries at least one exchange. -/
theorem journal_persistence (persona entryId : String) (ts : Timestamp)
    (script : List (String × ChatResult)) :
    ((runJournal persona entryId ts script).writes ≠ [] ↔
      ∃ e, (runJournal persona entryId ts script).outcome = LoopOutcome.saved e) ∧
    (∀ e, (runJournal persona entryId ts script).outcome = LoopOutcome.saved e →
      (runJournal persona entryId ts script).writes
          = [JournalWrite.entry e, JournalWrite.metadata] ∧
      e.exchanges ≠ []) :=
  journalLoop_writes_spec entryId ts script (initState persona)

lemma journalLoop_wordcount (entryId : String) (ts : Timestamp) :
    ∀ (script : List (String × ChatResult)) (st : SessionState),
      (∀ ev ∈ script, ev.2 ≠ ChatResult.err) →
      st.cumulativeWords = (st.sessionExchanges.map (fun ex => countWords ex.user)).sum →
      ∀ e, (journalLoop entryId ts st script).outcome = LoopOutcome.saved e →
        e.word_count = (e.exchanges.map (fun ex => countWords ex.user)).sum := by
  intro script
  induction script with
  | nil =>
    intro st hok hinv e he
    simp [journalLoop] at he
  | cons ev rest ih =>
    intro st hok hinv e he
    obtain ⟨raw, res⟩ := ev
    have hokrest : ∀ ev ∈ rest, ev.2 ≠ ChatResult.err := fun ev hev =>
      hok ev (List.mem_cons_of_mem _ hev)
    by_cases h1 : jsTrim raw = ""
    · rw [journalLoop, if_pos h1] at he
      exact ih st hokrest hinv e he
    · by_cases h2 : jsToLower (jsTrim raw) = "exit" ∨ jsToLower (jsTrim raw) = "quit"
      · rw [journalLoop, if_neg h1, if_pos h2] at he
        simp at he
      · by_cases h3 : jsToLower (jsTrim raw) = "save"
        · by_cases h4 : 0 < st.sessionExchanges.length
          · rw [journalLoop, if_neg h1, if_neg h2, if_pos h3, if_pos h4] at he
            simp only [LoopOutcome.saved.injEq] at he
            subst he
            simpa [mkSavedEntry] using hinv
          · rw [journalLoop, if_neg h1, if_neg h2, if_pos h3, if_neg h4] at he
            simp at he
        · cases res with
          | ok reply =>
            rw [journalLoop, if_neg h1, if_neg h2, if_neg h3] at he
            refine ih _ hokrest ?_ e he
            simp only [List.map_append, List.sum_append, List.map_cons, List.map_nil,
              List.sum_cons, List.sum_nil]
            omega
          | err =>
            exact absurd rfl (hok (raw, ChatResult.err) (List.mem_cons_self _ _))

/-- C1 (amended): when no chat call fails during the session, the stored
entry's `word_count` equals the sum of the whitespace-delimited word counts
of the `user` fields of its `exchanges`.  (When a chat call fails, the
failed turn's words have already been added to the running count even
though the turn is not appended — see the counterexample.) -/
theorem saved_word_count_no_failure (persona entryId : String) (ts : Timestamp)
    (script : List (String × ChatResult))
    (hok : ∀ ev ∈ script, ev.2 ≠ ChatResult.err) (e : EntryFile)
    (hsaved : (runJournal persona entryId ts script).outcome = LoopOutcome.saved e) :
    e.word_count = (e.exchanges.map (fun ex => countWords ex.user)).sum :=
  journalLoop_wordcount entryId ts script (initState persona) hok rfl e hsaved

/-! ### Concrete instances: example dates, entries, sessions -/

/-- Day number of 2025-01-01. -/
def day20250101 : Int := civilToDay 2025 1 1

/-- Day number of 2025-01-02. -/
def day20250102 : Int := civilToDay 2025 1 2

/-- Day number of 2025-01-03. -/
def day20250103 : Int := civilToDay 2025 1 3

/-- Day number of 2025-01-05. -/
def day20250105 : Int := civilToDay 2025 1 5

/-- An example timestamp (midnight UTC of 2025-01-01). -/
def ts0 : Timestamp := { date := day20250101, time := 0 }

/-- A bare entry on a given date with a given word count. -/
def mkEntry (d : Int) (wc : Nat) : EntryFile :=
  { id := "e", timestamp := { date := d, time := 0 }, content := "", word_count := wc,
    exchanges := [], analysis := none, embedding := none }

/-- Entries with qualifying word counts on 2025-01-01 .. 2025-01-03. -/
def streak3Entries : List EntryFile :=
  [mkEntry day20250101 800, mkEntry day20250102 800, mkEntry day20250103 800]

/-- Entries with qualifying word counts on 2025-01-01, 2025-01-02 and
2025-01-05 (a gap before the last date). -/
def gapEntries : List EntryFile :=
  [mkEntry day20250101 800, mkEntry day20250102 800, mkEntry day20250105 800]

/-- Entries with word counts 100, 200, 300 spread over 2 distinct dates. -/
def avgEntries : List EntryFile :=
  [mkEntry day20250101 100, mkEntry day20250101 200, mkEntry day20250102 300]

/-- Witness for C2 at the spec's example: three qualifying consecutive days
ending today give a current streak of exactly 3, and the characterization
instantiates there. -/
theorem current_streak_spec_witness :
    (calculateMetadata streak3Entries day20250103).current_daily_streak = 3 ∧
    (0 < (calculateMetadata streak3Entries day20250103).current_daily_streak ∧
      (∀ i : Nat, i < (calculateMetadata streak3Entries day20250103).current_daily_streak →
        (day20250103 - (i : Int)) ∈ qualifyingDatesOf streak3Entries) ∧
      (day20250103 -
          ((calculateMetadata streak3Entries day20250103).current_daily_streak : Int))
        ∉ qualifyingDatesOf streak3Entries) :=
  ⟨by decide, (current_streak_spec streak3Entries day20250103).2.2 (by decide)⟩

/-- Witness for C3 at the spec's example: qualifying dates 2025-01-01,
2025-01-02, 2025-01-05 give an all-time streak of exactly 2, realized by an
actual run. -/
theorem all_time_streak_spec_witness :
    (calculateMetadata gapEntries day20250105).all_time_daily_streak = 2 ∧
    (1 ≤ (calculateMetadata gapEntries day20250105).all_time_daily_streak ∧
      ∃ e : Int, ∀ i : Nat, i < (calculateMetadata gapEntries day20250105).all_time_daily_streak →
        (e + (i : Int)) ∈ qualifyingDatesOf gapEntries) :=
  ⟨by decide, (all_time_streak_spec gapEntries day20250105).2.1 (by decide)⟩

/-- Witness for C4: swapping two concrete entries leaves the computed
metadata unchanged. -/
theorem calculateMetadata_perm_witness :
    calculateMetadata [mkEntry day20250101 100, mkEntry day20250102 800] day20250102
      = calculateMetadata [mkEntry day20250102 800, mkEntry day20250101 100] day20250102 :=
  calculateMetadata_perm _ _ day20250102
    (List.Perm.swap (mkEntry day20250102 800) (mkEntry day20250101 100) [])

/-- Witness for C6 at the spec's example: word counts [100, 200, 300] over 2
distinct dates give averages 200.00 per session and 300.00 per day. -/
theorem averages_spec_witness :
    (calculateMetadata avgEntries day20250103).average_word_count_per_session = 200 ∧
    (calculateMetadata avgEntries day20250103).average_word_count_per_day = 300 ∧
    ((calculateMetadata avgEntries day20250103).average_word_count_per_session
        = round2 (((calculateMetadata avgEntries day20250103).total_word_count : ℚ)
            / (((calculateMetadata avgEntries day20250103).total_entries : Nat) : ℚ)) ∧
      (calculateMetadata avgEntries day20250103).average_word_count_per_day
        = round2 (((calculateMetadata avgEntries day20250103).total_word_count : ℚ)
            / (((datesOf avgEntries).length : Nat) : ℚ)) ∧
      (calculateMetadata avgEntries day20250103).total_word_count
        = (avgEntries.map EntryFile.word_count).sum) :=
  ⟨by
    norm_num [calculateMetadata, totalWordsOf, datesOf, jsSetAdd, round2, jsRound,
      entryDate, mkEntry, avgEntries],
  by
    norm_num [calculateMetadata, totalWordsOf, datesOf, jsSetAdd, round2, jsRound,
      entryDate, mkEntry, avgEntries, show day20250102 ≠ day20250101 from by decide],
  averages_spec avgEntries day20250103 (by decide)⟩

/-- The example session of the spec: two successful turns then `save`. -/
def okScript : List (String × ChatResult) :=
  [("hello world", ChatResult.ok "r1"), ("foo bar baz", ChatResult.ok "r2"),
    ("save", ChatResult.ok "")]

/-- The entry the example session saves. -/
def okEntry : EntryFile :=
  { id := "id1", timestamp := ts0, content := "hello world foo bar baz", word_count := 5,
    exchanges := [{ user := "hello world", assistant := "r1" },
      { user := "foo bar baz", assistant := "r2" }],
    analysis := none, embedding := none }

/-- Witness for C1: in the failure-free example session the saved word count
(5) equals the sum of the word counts of the user turns. -/
theorem saved_word_count_no_failure_witness :
    okEntry.word_count = (okEntry.exchanges.map (fun ex => countWords ex.user)).sum :=
  saved_word_count_no_failure "p" "id1" ts0 okScript (by decide) okEntry (by decide)

/-- A session whose first chat call fails: the three words of the failed
turn are still counted. -/
def errScript : List (String × ChatResult) :=
  [("ab cd ef", ChatResult.err), ("hi", ChatResult.ok "r"), ("save", ChatResult.ok "")]

/-- The entry saved by `errScript`: `word_count` is 4 although the single
recorded exchange has a 1-word user turn. -/
def errEntry : EntryFile :=
  { id := "id2", timestamp := ts0, content := "hi", word_count := 4,
    exchanges := [{ user := "hi", assistant := "r" }], analysis := none, embedding := none }

/-- Counterexample to C1 as stated: a session in which one chat call failed
saves an entry whose `word_count` (4: it includes the 3 words of the failed
turn, counted before the chat call at e-cue.ts:540-541) differs from the
word-count sum over its exchanges (1). -/
theorem saved_word_count_cex :
    (runJournal "p" "id2" ts0 errScript).outcome = LoopOutcome.saved errEntry ∧
    errEntry.word_count ≠ (errEntry.exchanges.map (fun ex => countWords ex.user)).sum :=
  ⟨by decide, by decide⟩

/-- Witness for C9: an `exit` session performs no writes, and the
persistence characterization instantiates at it. -/
theorem journal_persistence_witness :
    (runJournal "p" "id3" ts0 [("Exit", ChatResult.ok "x")]).writes = [] ∧
    (((runJournal "p" "id3" ts0 [("Exit", ChatResult.ok "x")]).writes ≠ [] ↔
      ∃ e, (runJournal "p" "id3" ts0 [("Exit", ChatResult.ok "x")]).outcome
          = LoopOutcome.saved e) ∧
    (∀ e, (runJournal "p" "id3" ts0 [("Exit", ChatResult.ok "x")]).outcome
          = LoopOutcome.saved e →
      (runJournal "p" "id3" ts0 [("Exit", ChatResult.ok "x")]).writes
          = [JournalWrite.entry e, JournalWrite.metadata] ∧
      e.exchanges ≠ [])) :=
  ⟨by decide, journal_persistence "p" "id3" ts0 [("Exit", ChatResult.ok "x")]⟩

/-! ### Enrichment: the empty-embedding early exit (C7) -/

/-- A successfully generated analysis record. -/
def enrichedAnalysis : Analysis :=
  { sentiment := "positive", emotions := ["calm"], tone := "reflective",
    topics := ["work"], summary := "short summary", keywords := ["keyword"] }

/-- An entry whose analysis is present but whose embedding is the empty
vector stored after an earlier embedding failure. -/
def emptyEmbeddingEntry : EntryFile :=
  { id := "bug", timestamp := ts0, content := "some text", word_count := 800,
    exchanges := [], analysis := some enrichedAnalysis, embedding := some [] }

/-- C7 (code bug): an entry holding an analysis and an *empty* embedding is
selected by `enrichAllEntries`' filter as still needing enrichment, yet
`enrichEntry` reports it "already has analysis and embedding" and returns
without generating or storing anything: the early exit
`if (entry.analysis && entry.embedding)` (e-cue.ts:414) sees the empty
array as truthy, so the retry promised by the spec (and implemented in the
inner check at e-cue.ts:430) is unreachable. -/
theorem enrich_empty_embedding_skipped :
    needsEnrichment emptyEmbeddingEntry = true ∧
    enrichEntry (some emptyEmbeddingEntry) enrichedAnalysis [5]
      = EnrichOutcome.alreadyEnriched :=
  ⟨by decide, by decide⟩

end ECue
